import Mathlib

/-!
Verification of the `Tagliapietra96/logger` repository.

The repository is a Go logging library that stores log records in an
embedded SQLite database and retrieves them through composable query
options.  The query options (`queries/queries.go`) accumulate raw SQL text
in a `strings.Builder` and re-derive clause structure by splitting the
accumulated text on the literal markers `" WHERE "`, `" ORDER BY "` and
`" LIMIT "`.  The write path (`handlers.go`) wraps multi-statement writes
in one transaction; the read path maps rows back to records.

This file shallowly embeds the relevant Go functions.  Go strings and
`strings.Builder` contents are modelled as `List Char`; Go's
`strings.Contains`, `strings.Split` and `strings.ToUpper` are re-implemented
below with the same semantics (`hasSub`, `splitSub`, `goToUpper`).  Effectful
code (SQLite transactions, row cursors) is modelled by explicit state
passing, with fault injection parameters standing for the points at which
the Go runtime can report an error.
-/

set_option maxRecDepth 8000

/-- Prefix test: `isPre p s` holds when the list `p` is an initial segment of `s`
(Go's `strings.HasPrefix`, used to implement `Contains` and `Split`). -/
def isPre : List Char → List Char → Bool
  | [], _ => true
  | _ :: _, [] => false
  | a :: as, b :: bs => a == b && isPre as bs

/-- Substring test: `hasSub s sub` holds when `sub` occurs contiguously inside `s`
(Go's `strings.Contains s sub`). -/
def hasSub : List Char → List Char → Bool
  | s, sub =>
    isPre sub s ||
      match s with
      | [] => false
      | _ :: t => hasSub t sub

/-- Worker for `splitSub`, structurally recursive on a fuel bound that
dominates the length of the remaining text (so that it evaluates by plain
kernel reduction). -/
def splitSubAux (sep : List Char) : Nat → List Char → List (List Char)
  | _, [] => [[]]
  | 0, c :: t => [c :: t]
  | fuel + 1, c :: t =>
    if sep ≠ [] ∧ isPre sep (c :: t) = true then
      [] :: splitSubAux sep fuel (t.drop (sep.length - 1))
    else
      match splitSubAux sep fuel t with
      | [] => [[c]]
      | p :: ps => (c :: p) :: ps

/-- Splitting: `splitSub sep s` splits `s` around every non-overlapping, leftmost-first
occurrence of the non-empty separator `sep` (Go's `strings.Split s sep`;
the Go behaviour for an empty separator is never used by this code base
and is modelled as no split). -/
def splitSub (sep : List Char) (s : List Char) : List (List Char) :=
  splitSubAux sep s.length s

theorem splitSubAux_fuel (sep : List Char) :
    ∀ f1 f2 s, s.length ≤ f1 → s.length ≤ f2 →
    splitSubAux sep f1 s = splitSubAux sep f2 s := by
  intro f1
  induction f1 with
  | zero =>
    intro f2 s h1 _
    cases s with
    | nil => cases f2 <;> rfl
    | cons c t => simp at h1
  | succ f1 ih =>
    intro f2 s h1 h2
    cases s with
    | nil => cases f2 <;> rfl
    | cons c t =>
      cases f2 with
      | zero => simp at h2
      | succ f2 =>
        simp only [splitSubAux]
        have ht1 : t.length ≤ f1 := by simp at h1; omega
        have ht2 : t.length ≤ f2 := by simp at h2; omega
        have hd : (t.drop (sep.length - 1)).length ≤ t.length := by
          rw [List.length_drop]; omega
        by_cases hc : sep ≠ [] ∧ isPre sep (c :: t) = true
        · rw [if_pos hc, if_pos hc,
            ih f2 (t.drop (sep.length - 1)) (le_trans hd ht1)
              (le_trans hd ht2)]
        · rw [if_neg hc, if_neg hc, ih f2 t ht1 ht2]

theorem splitSub_nil (sep : List Char) : splitSub sep [] = [[]] := rfl

theorem splitSub_cons (sep : List Char) (c : Char) (t : List Char) :
    splitSub sep (c :: t) =
      if sep ≠ [] ∧ isPre sep (c :: t) = true then
        [] :: splitSub sep (t.drop (sep.length - 1))
      else
        match splitSub sep t with
        | [] => [[c]]
        | p :: ps => (c :: p) :: ps := by
  show splitSubAux sep (t.length + 1) (c :: t) = _
  simp only [splitSubAux]
  have hd : (t.drop (sep.length - 1)).length ≤ t.length := by
    rw [List.length_drop]; omega
  by_cases hc : sep ≠ [] ∧ isPre sep (c :: t) = true
  · rw [if_pos hc, if_pos hc,
      splitSubAux_fuel sep t.length (t.drop (sep.length - 1)).length
        (t.drop (sep.length - 1)) hd le_rfl]
    rfl
  · rw [if_neg hc, if_neg hc]
    rfl

/-- Go's `pieces[i]` on the result of `strings.Split`.  Every use in the
source is guarded by a `strings.Contains` check that guarantees the index
exists, so the default value is never observed. -/
def getPiece (l : List (List Char)) (i : Nat) : List Char := l.getD i []

theorem isPre_iff (p s : List Char) : isPre p s = true ↔ ∃ r, s = p ++ r := by
  induction p generalizing s with
  | nil => simp [isPre]
  | cons a as ih =>
    cases s with
    | nil => simp [isPre]
    | cons b bs =>
      simp only [isPre, Bool.and_eq_true, beq_iff_eq, ih, List.cons_append,
        List.cons.injEq]
      constructor
      · rintro ⟨rfl, r, rfl⟩; exact ⟨r, rfl, rfl⟩
      · rintro ⟨r, rfl, rfl⟩; exact ⟨rfl, r, rfl⟩

theorem hasSub_iff (s sub : List Char) :
    hasSub s sub = true ↔ ∃ a b, s = a ++ sub ++ b := by
  induction s with
  | nil =>
    rw [hasSub]
    simp only [Bool.or_eq_true, isPre_iff]
    constructor
    · rintro (⟨r, hr⟩ | h)
      · exact ⟨[], r, by simpa using hr⟩
      · cases h
    · rintro ⟨a, b, hab⟩
      have ha : a = [] := by
        cases a with
        | nil => rfl
        | cons x xs => simp at hab
      subst ha
      exact Or.inl ⟨b, by simpa using hab⟩
  | cons c t ih =>
    rw [hasSub]
    simp only [Bool.or_eq_true, isPre_iff, ih]
    constructor
    · rintro (⟨r, hr⟩ | ⟨a, b, hab⟩)
      · exact ⟨[], r, by simpa using hr⟩
      · exact ⟨c :: a, b, by simp [hab]⟩
    · rintro ⟨a, b, hab⟩
      cases a with
      | nil => exact Or.inl ⟨b, by simpa using hab⟩
      | cons x xs =>
        simp only [List.cons_append, List.cons.injEq] at hab
        exact Or.inr ⟨xs, b, hab.2⟩

theorem hasSub_append_mid (a m b : List Char) :
    hasSub (a ++ m ++ b) m = true :=
  (hasSub_iff _ _).mpr ⟨a, b, rfl⟩

/-- Substring occurrence is preserved by surrounding context. -/
theorem hasSub_of_hasSub_inner (x s y m : List Char)
    (h : hasSub s m = true) : hasSub (x ++ s ++ y) m = true := by
  rcases (hasSub_iff _ _).mp h with ⟨a, b, rfl⟩
  exact (hasSub_iff _ _).mpr ⟨x ++ a, b ++ y, by simp⟩

/-- Transitivity of substring occurrence. -/
theorem hasSub_trans {s m' m : List Char}
    (h1 : hasSub s m' = true) (h2 : hasSub m' m = true) :
    hasSub s m = true := by
  rcases (hasSub_iff _ _).mp h1 with ⟨a, b, rfl⟩
  rcases (hasSub_iff _ _).mp h2 with ⟨c, d, rfl⟩
  exact (hasSub_iff _ _).mpr ⟨a ++ c, d ++ b, by simp⟩

theorem splitSub_of_not_hasSub (sep s : List Char)
    (h : hasSub s sep = false) : splitSub sep s = [s] := by
  induction s with
  | nil => rw [splitSub_nil]
  | cons c t ih =>
    rw [hasSub] at h
    simp only [Bool.or_eq_false_iff] at h
    rw [splitSub_cons, if_neg (by simp [h.1]), ih h.2]

theorem splitSub_ne_nil (sep s : List Char) : splitSub sep s ≠ [] := by
  cases s with
  | nil => rw [splitSub_nil]; simp
  | cons c t =>
    rw [splitSub_cons]
    by_cases h : sep ≠ [] ∧ isPre sep (c :: t) = true
    · rw [if_pos h]; simp
    · rw [if_neg h]; cases hq : splitSub sep t <;> simp

theorem isPre_of_isPre_append (p x y : List Char)
    (h : isPre p (x ++ y) = true) (hl : p.length ≤ x.length) :
    isPre p x = true := by
  rcases (isPre_iff _ _).mp h with ⟨r, hr⟩
  refine (isPre_iff _ _).mpr ⟨x.drop p.length, ?_⟩
  have htake : (x ++ y).take p.length = x.take p.length :=
    List.take_append_of_le_length hl
  have htake2 : (x ++ y).take p.length = p := by
    rw [hr]
    exact List.take_left' rfl
  conv_lhs => rw [← List.take_append_drop p.length x]
  rw [← htake, htake2]

/-- Condition `noSelfOcc a sep`: no occurrence of `sep` starts strictly inside
`a ++ sep` before position `a.length`; this makes the occurrence of `sep`
at the end of `a ++ sep` the leftmost one. -/
def noSelfOcc (a sep : List Char) : Bool :=
  (List.range a.length).all fun i => !(isPre sep ((a ++ sep).drop i))

theorem splitSub_first (sep a b : List Char) (hsep : sep ≠ [])
    (h : noSelfOcc a sep = true) :
    splitSub sep (a ++ sep ++ b) = a :: splitSub sep b := by
  induction a with
  | nil =>
    cases sep with
    | nil => exact absurd rfl hsep
    | cons c t' =>
      have hpre : isPre (c :: t') (c :: (t' ++ b)) = true :=
        (isPre_iff _ _).mpr ⟨b, by simp⟩
      simp only [List.nil_append, List.cons_append]
      rw [splitSub_cons, if_pos ⟨hsep, hpre⟩]
      congr 2
      simp only [List.length_cons, Nat.add_sub_cancel]
      exact List.drop_left' rfl
  | cons x xs ih =>
    have h0 : isPre sep ((x :: xs) ++ sep) = false := by
      have := (List.all_eq_true.mp h) 0 (by simp [List.mem_range])
      simpa using this
    have hxs : noSelfOcc xs sep = true := by
      refine List.all_eq_true.mpr ?_
      intro i hi
      simp only [List.mem_range] at hi
      have := (List.all_eq_true.mp h) (i + 1) (by simp [List.mem_range]; omega)
      simpa using this
    have hnotpre : isPre sep (x :: (xs ++ (sep ++ b))) = false := by
      by_contra hc
      have hc' : isPre sep (x :: (xs ++ (sep ++ b))) = true := by
        revert hc; cases isPre sep (x :: (xs ++ (sep ++ b))) <;> simp
      have hc2 : isPre sep (((x :: xs) ++ sep) ++ b) = true := by
        simpa [List.append_assoc] using hc'
      have : isPre sep ((x :: xs) ++ sep) = true := by
        refine isPre_of_isPre_append sep ((x :: xs) ++ sep) b hc2 ?_
        simp only [List.length_append, List.length_cons]
        omega
      rw [h0] at this; cases this
    have hstep : splitSub sep (x :: (xs ++ (sep ++ b))) =
        match splitSub sep (xs ++ (sep ++ b)) with
        | [] => [[x]]
        | p :: ps => (x :: p) :: ps := by
      rw [splitSub_cons, if_neg (by simp [hnotpre])]
    simp only [List.cons_append, List.append_assoc] at ih ⊢
    rw [hstep, ih hxs]

theorem splitSub_pair (sep a b : List Char) (hsep : sep ≠ [])
    (ha : noSelfOcc a sep = true) (hb : hasSub b sep = false) :
    splitSub sep (a ++ sep ++ b) = [a, b] := by
  rw [splitSub_first sep a b hsep ha, splitSub_of_not_hasSub sep b hb]

theorem splitSub_head (sep : List Char) (hsep : sep ≠ []) (s : List Char) :
    ∃ r, getPiece (splitSub sep s) 0 ++ r = s ∧
      hasSub (getPiece (splitSub sep s) 0) sep = false := by
  induction s with
  | nil =>
    refine ⟨[], by simp [splitSub_nil, getPiece], ?_⟩
    rw [splitSub_nil]
    cases sep with
    | nil => exact absurd rfl hsep
    | cons c t => simp [getPiece, hasSub, isPre]
  | cons c t ih =>
    by_cases h : sep ≠ [] ∧ isPre sep (c :: t) = true
    · rw [splitSub_cons, if_pos h]
      exact ⟨c :: t, by simp [getPiece], by
        rw [show getPiece ([] :: splitSub sep (t.drop (sep.length - 1))) 0 = []
          from rfl]
        rw [hasSub]
        cases sep with
        | nil => exact absurd rfl hsep
        | cons a as => simp [isPre]⟩
    · have hstep : splitSub sep (c :: t) =
          match splitSub sep t with
          | [] => [[c]]
          | p :: ps => (c :: p) :: ps := by
        rw [splitSub_cons, if_neg h]
      rcases ih with ⟨r, hr, hfree⟩
      cases hq : splitSub sep t with
      | nil => exact absurd hq (splitSub_ne_nil sep t)
      | cons p ps =>
        rw [hq] at hr hfree
        rw [hstep, hq]
        simp only [getPiece, List.getD_cons_zero] at hr hfree ⊢
        refine ⟨r, by simp [← hr], ?_⟩
        rw [hasSub]
        have hpre : isPre sep (c :: p) = false := by
          by_contra hc
          have hc' : isPre sep (c :: p) = true := by
            revert hc; cases isPre sep (c :: p) <;> simp
          rcases (isPre_iff _ _).mp hc' with ⟨q, hqd⟩
          have hct : isPre sep (c :: t) = true := by
            refine (isPre_iff _ _).mpr ⟨q ++ r, ?_⟩
            rw [← hr, ← List.append_assoc, ← hqd]; simp
          exact h ⟨hsep, hct⟩
        simp [hpre, hfree]

/-- An occurrence of `m` in `x ++ y` lies in `x`, lies in `y`, or spans the
junction with a nonempty part on each side. -/
theorem hasSub_append_cases (x y m : List Char)
    (h : hasSub (x ++ y) m = true) :
    hasSub x m = true ∨ hasSub y m = true ∨
      ∃ m1 m2, m = m1 ++ m2 ∧ m1 ≠ [] ∧ m2 ≠ [] ∧
        (∃ u, x = u ++ m1) ∧ (∃ v, y = m2 ++ v) := by
  rcases (hasSub_iff _ _).mp h with ⟨a, b, hab⟩
  by_cases h1 : a.length + m.length ≤ x.length
  · left
    have hx : x = (x ++ y).take x.length := (List.take_left' rfl).symm
    rw [hab] at hx
    have hlen : x.length = (a ++ m).length + (x.length - (a ++ m).length) := by
      simp only [List.length_append]; omega
    rw [List.append_assoc] at hx
    rw [show a ++ (m ++ b) = (a ++ m) ++ b by simp, hlen,
      List.take_append] at hx
    obtain ⟨k, hx'⟩ : ∃ k, x = a ++ m ++ b.take k := ⟨_, hx⟩
    exact (hasSub_iff _ _).mpr ⟨a, b.take k, hx'⟩
  · by_cases h2 : x.length ≤ a.length
    · right; left
      have hy : y = (x ++ y).drop x.length := (List.drop_left' rfl).symm
      rw [hab, List.append_assoc, List.drop_append_of_le_length h2] at hy
      exact (hasSub_iff _ _).mpr ⟨a.drop x.length, b, by rw [hy]; simp⟩
    · right; right
      push_neg at h1 h2
      set k := x.length - a.length with hk
      have hk1 : 1 ≤ k := by omega
      have hk2 : k < m.length := by omega
      refine ⟨m.take k, m.drop k, (List.take_append_drop k m).symm,
        ?_, ?_, ⟨a, ?_⟩, ⟨b, ?_⟩⟩
      · intro hc
        have := congrArg List.length hc
        simp only [List.length_take, List.length_nil] at this
        omega
      · intro hc
        have := congrArg List.length hc
        simp only [List.length_drop, List.length_nil] at this
        omega
      · have hx : x = (x ++ y).take x.length := (List.take_left' rfl).symm
        rw [hab, List.append_assoc,
          show x.length = a.length + k by omega, List.take_append,
          List.take_append_of_le_length (le_of_lt hk2)] at hx
        exact hx
      · have hy : y = (x ++ y).drop x.length := (List.drop_left' rfl).symm
        rw [hab, show x.length = a.length + k by omega,
          show a ++ m ++ b = a ++ (m ++ b) by simp, List.drop_append,
          List.drop_append_of_le_length (le_of_lt hk2)] at hy
        exact hy

theorem hasSub_append_right (x y m : List Char)
    (h : hasSub y m = true) : hasSub (x ++ y) m = true := by
  have := hasSub_of_hasSub_inner x y [] m h
  simpa using this

theorem hasSub_append_left (x y m : List Char)
    (h : hasSub x m = true) : hasSub (x ++ y) m = true := by
  have := hasSub_of_hasSub_inner [] x y m h
  simpa using this

/-- If `m` does not contain `v`, an occurrence of `m` in `u ++ v ++ w`
is entirely within `u ++ v` or entirely within `v ++ w`. -/
theorem junction_split (u v w m : List Char) (hmv : hasSub m v = false)
    (h : hasSub (u ++ v ++ w) m = true) :
    hasSub (u ++ v) m = true ∨ hasSub (v ++ w) m = true := by
  rcases hasSub_append_cases (u ++ v) w m h with h1 | h2 | h3
  · exact Or.inl h1
  · exact Or.inr (hasSub_append_right v w m h2)
  · rcases h3 with ⟨m1, m2, hm, hm1, hm2, ⟨t, ht⟩, ⟨v', hv'⟩⟩
    by_cases hl : m1.length ≤ v.length
    · right
      have hlen : u.length + v.length = t.length + m1.length := by
        have := congrArg List.length ht
        simpa using this
      have hdrop : (u ++ v).drop (u.length + (v.length - m1.length)) =
          v.drop (v.length - m1.length) := List.drop_append _
      have hdrop2 : (t ++ m1).drop (t.length + 0) = m1.drop 0 :=
        List.drop_append 0
      have hm1v : m1 = v.drop (v.length - m1.length) := by
        have heq : (u ++ v).drop (u.length + (v.length - m1.length)) =
            (t ++ m1).drop (t.length + 0) := by
          rw [← ht]
          congr 1
          omega
        simpa [hdrop, hdrop2] using heq.symm
      refine (hasSub_iff _ _).mpr ⟨v.take (v.length - m1.length), v', ?_⟩
      rw [hv', hm]
      conv_lhs => rw [← List.take_append_drop (v.length - m1.length) v,
        ← hm1v]
      simp [List.append_assoc]
    · exfalso
      have hlen : u.length + v.length = t.length + m1.length := by
        have := congrArg List.length ht
        simpa using this
      have htu : t.length ≤ u.length := by omega
      have hm1uv : m1 = u.drop t.length ++ v := by
        have heq : (u ++ v).drop t.length = (t ++ m1).drop (t.length + 0) := by
          rw [← ht, Nat.add_zero]
        rw [List.drop_append_of_le_length htu, List.drop_append 0] at heq
        simpa using heq.symm
      have : hasSub m v = true := by
        refine (hasSub_iff _ _).mpr ⟨u.drop t.length, m2, ?_⟩
        rw [hm, hm1uv]
      rw [hmv] at this; cases this

/-- The three clause markers and the separators written by the Go query
options (`queries/queries.go`). -/
def whereTok : List Char := " WHERE ".data

def orderTok : List Char := " ORDER BY ".data

def limitTok : List Char := " LIMIT ".data

def andTok : List Char := " AND ".data

def commaTok : List Char := ", ".data

def offsetTok : List Char := " OFFSET ".data

def semiTok : List Char := ";".data

/-- The fixed base query `defaultQuery` of `queries/queries.go` and
`handlers.go`. -/
def defaultQuery : List Char :=
  "\nSELECT DISTINCT logs.id, logs.level, logs.caller_file, logs.caller_line, logs.caller_function, logs.message, logs.time\nFROM logs\nINNER JOIN log_tags ON logs.id = log_tags.log_id\nINNER JOIN tags ON log_tags.tag_id = tags.id\n".data

/-- Conjunction text: `joinAnd fs` is `f1 ++ " AND " ++ f2 ++ " AND " ++ …`: the shape of the
WHERE clause accumulated by repeated `prepareFilter` applications. -/
def joinAnd : List (List Char) → List Char
  | [] => []
  | [f] => f
  | f :: fs => f ++ andTok ++ joinAnd fs

/-- Marker freedom `noMk s`: the accumulated text `s` contains none of the three clause
markers that `prepareFilter`/`prepareSort`/`AddLimit` split on. -/
def noMk (s : List Char) : Bool :=
  !hasSub s whereTok && !hasSub s orderTok && !hasSub s limitTok

/-- Fragment safety `fragOk f`: the predicate fragment `f` is nonempty and introduces no
clause-marker occurrence, even when surrounded by the `" AND "` separators
that `prepareFilter` writes around it.  This is the formal meaning of an
"independent" predicate option: one whose text cannot collide with the
textual clause re-derivation. -/
def fragOk (f : List Char) : Bool :=
  !f.isEmpty && noMk (andTok ++ f ++ andTok)

theorem joinAnd_cons (f : List Char) (fs : List (List Char)) (h : fs ≠ []) :
    joinAnd (f :: fs) = f ++ andTok ++ joinAnd fs := by
  cases fs with
  | nil => exact absurd rfl h
  | cons g gs => rw [joinAnd]; simp

theorem joinAnd_concat (fs : List (List Char)) (g : List Char) (h : fs ≠ []) :
    joinAnd (fs ++ [g]) = joinAnd fs ++ andTok ++ g := by
  induction fs with
  | nil => exact absurd rfl h
  | cons f fs ih =>
    cases fs with
    | nil => simp [joinAnd]
    | cons f' fs' =>
      rw [List.cons_append, joinAnd_cons f ((f' :: fs') ++ [g]) (by simp),
        joinAnd_cons f (f' :: fs') (by simp), ih (by simp)]
      simp [List.append_assoc]

theorem joinAnd_marker_free (m : List Char) (hm : hasSub m andTok = false)
    (fs : List (List Char)) (hne : fs ≠ [])
    (hok : ∀ f ∈ fs, hasSub (andTok ++ f ++ andTok) m = false) :
    hasSub (andTok ++ joinAnd fs ++ andTok) m = false := by
  induction fs with
  | nil => exact absurd rfl hne
  | cons f fs ih =>
    cases fs with
    | nil => simpa [joinAnd] using hok f (by simp)
    | cons g gs =>
      rw [joinAnd_cons f (g :: gs) (by simp)]
      by_contra hc
      have hc' : hasSub (andTok ++ (f ++ andTok ++ joinAnd (g :: gs)) ++
          andTok) m = true := by
        revert hc
        cases hasSub (andTok ++ (f ++ andTok ++ joinAnd (g :: gs)) ++
          andTok) m <;> simp
      have hc2 : hasSub ((andTok ++ f) ++ andTok ++
          (joinAnd (g :: gs) ++ andTok)) m = true := by
        rw [show (andTok ++ f) ++ andTok ++ (joinAnd (g :: gs) ++ andTok) =
          andTok ++ (f ++ andTok ++ joinAnd (g :: gs)) ++ andTok by
            simp [List.append_assoc]]
        exact hc'
      rcases junction_split (andTok ++ f) andTok
        (joinAnd (g :: gs) ++ andTok) m hm hc2 with h1 | h2
      · have := hok f (by simp)
        rw [show (andTok ++ f) ++ andTok = andTok ++ f ++ andTok by
          simp [List.append_assoc]] at h1
        rw [this] at h1; cases h1
      · have hih := ih (by simp) (fun f hf => hok f (by simp [hf]))
        rw [show andTok ++ (joinAnd (g :: gs) ++ andTok) =
          andTok ++ joinAnd (g :: gs) ++ andTok by simp [List.append_assoc]]
          at h2
        rw [hih] at h2; cases h2

theorem joinAnd_free_of_fragOk (m : List Char) (hm : hasSub m andTok = false)
    (fs : List (List Char)) (hne : fs ≠ [])
    (hok : ∀ f ∈ fs, hasSub (andTok ++ f ++ andTok) m = false) :
    hasSub (joinAnd fs) m = false := by
  by_contra hc
  have hc' : hasSub (joinAnd fs) m = true := by
    revert hc; cases hasSub (joinAnd fs) m <;> simp
  have := hasSub_of_hasSub_inner andTok (joinAnd fs) andTok m hc'
  rw [joinAnd_marker_free m hm fs hne hok] at this
  cases this

/-- The contents of a Go `strings.Builder` accumulating SQL text. -/
abbrev Builder := List Char

/-- Go type `QueryOption func(*strings.Builder)` from `handlers.go`, modelled
as a state transformer on the builder contents. -/
abbrev QueryOption := Builder → Builder

/-- Go's `fmt.Sprintf("%d", n)`. -/
def goItoa (n : Int) : List Char := (toString n).data

/-- Go's `strings.ToUpper`, on the ASCII inputs this code base uses. -/
def goToUpper (s : List Char) : List Char := s.map Char.toUpper

/-- Function `getOrder` from `queries/queries.go` lines 18-24. -/
def getOrder (order : List Char) : List Char :=
  let o := goToUpper order
  if o ≠ "ASC".data ∧ o ≠ "DESC".data then "ASC".data else o

/-- Function `prepareFilter` from `queries/queries.go` lines 48-112: re-derives the
clause structure of the accumulated text `s` by splitting on the literal
markers, re-assembles the statement, and appends the new predicate after
`" WHERE "` or `" AND "`. -/
def prepareFilter (config : QueryOption) : QueryOption := fun sb0 =>
  let s := sb0
  let sb1 := if s.isEmpty then sb0 ++ defaultQuery else sb0
  let fol :=
    if hasSub s whereTok then
      let filter0 := getPiece (splitSub whereTok s) 1
      if hasSub filter0 orderTok then
        let f := getPiece (splitSub orderTok filter0) 0
        let o0 := getPiece (splitSub orderTok filter0) 1
        if hasSub o0 limitTok then
          (defaultQuery ++ whereTok ++ f,
            getPiece (splitSub limitTok o0) 0, getPiece (splitSub limitTok o0) 1)
        else (defaultQuery ++ whereTok ++ f, o0, [])
      else if hasSub filter0 limitTok then
        (defaultQuery ++ whereTok ++ getPiece (splitSub limitTok filter0) 0,
          [], getPiece (splitSub limitTok filter0) 1)
      else (defaultQuery ++ whereTok ++ filter0, [], [])
    else if hasSub s orderTok then
      let o0 := getPiece (splitSub orderTok s) 1
      if hasSub o0 limitTok then
        (defaultQuery, getPiece (splitSub limitTok o0) 0,
          getPiece (splitSub limitTok o0) 1)
      else (defaultQuery, o0, [])
    else if hasSub s limitTok then
      (defaultQuery, [], getPiece (splitSub limitTok s) 1)
    else (sb1, ([] : List Char), ([] : List Char))
  let base := if hasSub s whereTok then fol.1 ++ andTok else fol.1 ++ whereTok
  let base := config base
  let base := if fol.2.1.isEmpty then base else base ++ orderTok ++ fol.2.1
  if fol.2.2.isEmpty then base else base ++ limitTok ++ fol.2.2

/-- Function `prepareSort` from `queries/queries.go` lines 114-156. -/
def prepareSort (config : QueryOption) : QueryOption := fun sb0 =>
  let s := sb0
  let sb1 := if s.isEmpty then sb0 ++ defaultQuery else sb0
  let bl :=
    if hasSub s orderTok then
      let base0 := getPiece (splitSub orderTok s) 0
      let o0 := getPiece (splitSub orderTok s) 1
      if hasSub o0 limitTok then
        (base0 ++ orderTok ++ getPiece (splitSub limitTok o0) 0,
          getPiece (splitSub limitTok o0) 1)
      else (base0 ++ orderTok ++ o0, ([] : List Char))
    else if hasSub s limitTok then
      (getPiece (splitSub limitTok s) 0, getPiece (splitSub limitTok s) 1)
    else (sb1, ([] : List Char))
  let base := if hasSub s orderTok then bl.1 ++ commaTok else bl.1 ++ orderTok
  let base := config base
  if bl.2.isEmpty then base else base ++ limitTok ++ bl.2

/-- Function `AddFilters` from `queries/queries.go` lines 168-174.  The Go loop body
is `prepareFilter(config)`: it builds the prepared option and discards it
without ever invoking it on the builder, so the builder is returned
untouched. -/
def AddFilters (configs : List QueryOption) : QueryOption := fun sb =>
  configs.foldl (fun acc config =>
    let _prepared := prepareFilter config
    acc) sb

/-- Function `AddSorts` from `queries/queries.go` lines 186-192; same discarded-value
loop as `AddFilters`. -/
def AddSorts (configs : List QueryOption) : QueryOption := fun sb =>
  configs.foldl (fun acc config =>
    let _prepared := prepareSort config
    acc) sb

/-- Function `AddLimit` from `queries/queries.go` lines 208-235.  The Go signature is
variadic (`limitAndOffset ...int`), modelled as a list argument. -/
def AddLimit (limitAndOffset : List Int) : QueryOption := fun sb0 =>
  if limitAndOffset.isEmpty then sb0 else
  let s := sb0
  let sb1 := if s.isEmpty then sb0 ++ defaultQuery else sb0
  let sb2 := if hasSub s limitTok then getPiece (splitSub limitTok s) 0 else sb1
  let sb3 := sb2 ++ limitTok ++ goItoa (limitAndOffset.getD 0 0)
  if limitAndOffset.length > 1 then
    sb3 ++ offsetTok ++ goItoa (limitAndOffset.getD 1 0)
  else sb3

/-- Function `MessageLike` from `queries/queries.go` lines 436-440:
`fmt.Sprintf("logs.message LIKE '%%%s%%'", message)` inside a
`prepareFilter`. -/
def MessageLike (message : List Char) : QueryOption :=
  prepareFilter (fun sb =>
    sb ++ "logs.message LIKE '%".data ++ message ++ "%'".data)

/-- Function `LevelEqual` from `queries/queries.go` lines 263-267. -/
def LevelEqual (level : Int) : QueryOption :=
  prepareFilter (fun sb => sb ++ "logs.level = ".data ++ goItoa level)

/-- Function `CallerLineEqual` from `queries/queries.go` lines 349-353. -/
def CallerLineEqual (line : Int) : QueryOption :=
  prepareFilter (fun sb => sb ++ "logs.caller_line = ".data ++ goItoa line)

/-- Function `SortLevel` from `queries/queries.go` lines 592-596. -/
def SortLevel (order : List Char) : QueryOption :=
  prepareSort (fun sb => sb ++ "logs.level ".data ++ getOrder order)

/-- Function `SortTimestamp` from `queries/queries.go` lines 657-661. -/
def SortTimestamp (order : List Char) : QueryOption :=
  prepareSort (fun sb => sb ++ "logs.time ".data ++ getOrder order)

/-- The query text built by `queryLogs` (`handlers.go` lines 182-187):
start from `defaultQuery`, apply every option, terminate with `";"`. -/
def compileQuery (configs : List QueryOption) : List Char :=
  (configs.foldl (fun q config => config q) defaultQuery) ++ semiTok

/-- A generic predicate option: `prepareFilter` around a config that appends
one fixed fragment, the shape shared by every filter option in
`queries/queries.go` (`LevelEqual`, `MessageLike`, …). -/
def mkFilter (f : List Char) : QueryOption := prepareFilter (fun sb => sb ++ f)

theorem fragOk_ne_nil {f : List Char} (h : fragOk f = true) : f ≠ [] := by
  simp only [fragOk, Bool.and_eq_true, Bool.not_eq_true'] at h
  intro hc
  rw [hc] at h
  simp at h

theorem fragOk_whereFree {f : List Char} (h : fragOk f = true) :
    hasSub (andTok ++ f ++ andTok) whereTok = false := by
  simp only [fragOk, noMk, Bool.and_eq_true, Bool.not_eq_true'] at h
  exact h.2.1.1

theorem fragOk_orderFree {f : List Char} (h : fragOk f = true) :
    hasSub (andTok ++ f ++ andTok) orderTok = false := by
  simp only [fragOk, noMk, Bool.and_eq_true, Bool.not_eq_true'] at h
  exact h.2.1.2

theorem fragOk_limitFree {f : List Char} (h : fragOk f = true) :
    hasSub (andTok ++ f ++ andTok) limitTok = false := by
  simp only [fragOk, noMk, Bool.and_eq_true, Bool.not_eq_true'] at h
  exact h.2.2

/-- Applying a filter fragment to the bare base query appends the first
`" WHERE "` clause. -/
theorem prepareFilter_base (g : List Char) :
    mkFilter g defaultQuery = defaultQuery ++ whereTok ++ g := by
  have h1 : defaultQuery.isEmpty = false := by decide
  have h2 : hasSub defaultQuery whereTok = false := by decide
  have h3 : hasSub defaultQuery orderTok = false := by decide
  have h4 : hasSub defaultQuery limitTok = false := by decide
  simp only [mkFilter, prepareFilter, h1, h2, h3, h4, Bool.false_eq_true,
    if_false, List.isEmpty_nil, if_true]

/-- Applying a further filter fragment to a well-formed
`defaultQuery ++ " WHERE " ++ j` state appends `" AND " ++ g`, provided the
current WHERE body `j` contains no clause marker. -/
theorem prepareFilter_step (j g : List Char)
    (hjW : hasSub j whereTok = false) (hjO : hasSub j orderTok = false)
    (hjL : hasSub j limitTok = false) :
    mkFilter g (defaultQuery ++ whereTok ++ j) =
      defaultQuery ++ whereTok ++ j ++ andTok ++ g := by
  have hne : (defaultQuery ++ whereTok ++ j).isEmpty = false := by
    cases h : (defaultQuery ++ whereTok ++ j).isEmpty
    · rfl
    · rw [List.isEmpty_eq_true] at h
      simp only [List.append_eq_nil] at h
      exact absurd h.1.1 (by decide)
  have hW : hasSub (defaultQuery ++ whereTok ++ j) whereTok = true :=
    hasSub_append_mid _ _ _
  have hsplit : splitSub whereTok (defaultQuery ++ whereTok ++ j) =
      [defaultQuery, j] :=
    splitSub_pair _ _ _ (by decide) (by decide) hjW
  simp only [mkFilter, prepareFilter, hne, hW, hsplit, Bool.false_eq_true,
    if_false, if_true, getPiece, List.getD_cons_succ, List.getD_cons_zero,
    hjO, hjL, List.isEmpty_nil]

/-- Folding further filter fragments over a well-formed WHERE state extends
the conjunction in application order. -/
theorem filterFold_inv (rest : List (List Char)) :
    ∀ p : List (List Char), p ≠ [] → (∀ f ∈ p, fragOk f = true) →
    (∀ f ∈ rest, fragOk f = true) →
    rest.foldl (fun sb f => mkFilter f sb)
        (defaultQuery ++ whereTok ++ joinAnd p) =
      defaultQuery ++ whereTok ++ joinAnd (p ++ rest) := by
  induction rest with
  | nil => intro p hp _ _; simp
  | cons g rest ih =>
    intro p hp hpok hrok
    have hjW := joinAnd_free_of_fragOk whereTok (by decide) p hp
      (fun f hf => fragOk_whereFree (hpok f hf))
    have hjO := joinAnd_free_of_fragOk orderTok (by decide) p hp
      (fun f hf => fragOk_orderFree (hpok f hf))
    have hjL := joinAnd_free_of_fragOk limitTok (by decide) p hp
      (fun f hf => fragOk_limitFree (hpok f hf))
    rw [List.foldl_cons, prepareFilter_step (joinAnd p) g hjW hjO hjL]
    have hshape : defaultQuery ++ whereTok ++ joinAnd p ++ andTok ++ g =
        defaultQuery ++ whereTok ++ joinAnd (p ++ [g]) := by
      rw [joinAnd_concat p g hp]
      simp [List.append_assoc]
    rw [hshape, ih (p ++ [g]) (by simp)
      (fun f hf => by
        rcases List.mem_append.mp hf with h | h
        · exact hpok f h
        · rw [List.mem_singleton.mp h]; exact hrok g (by simp))
      (fun f hf => hrok f (by simp [hf]))]
    congr 2
    simp

/-- Compiling a nonempty list of independent filter options yields the base
query followed by one WHERE clause that conjoins the fragments in
application order. -/
theorem compile_filters (fs : List (List Char)) (hne : fs ≠ [])
    (hok : ∀ f ∈ fs, fragOk f = true) :
    compileQuery (fs.map mkFilter) =
      defaultQuery ++ whereTok ++ joinAnd fs ++ semiTok := by
  cases fs with
  | nil => exact absurd rfl hne
  | cons f rest =>
    unfold compileQuery
    rw [List.map_cons, List.foldl_cons, List.foldl_map, prepareFilter_base f]
    have h1 : defaultQuery ++ whereTok ++ f =
        defaultQuery ++ whereTok ++ joinAnd [f] := by simp [joinAnd]
    rw [h1, filterFold_inv rest [f] (by simp)
      (fun x hx => by rw [List.mem_singleton.mp hx]; exact hok f (by simp))
      (fun x hx => hok x (by simp [hx]))]
    simp

/-- A one-argument `AddLimit` call appends exactly `" LIMIT " ++ n` to a
limit-marker-free base. -/
theorem addLimit_one (n : Int) (s : Builder) :
    ∃ b, AddLimit [n] s = b ++ limitTok ++ goItoa n ∧
      hasSub b limitTok = false := by
  by_cases hL : hasSub s limitTok = true
  · obtain ⟨r, hr, hfree⟩ := splitSub_head limitTok (by decide) s
    refine ⟨getPiece (splitSub limitTok s) 0, ?_, hfree⟩
    unfold AddLimit
    simp [hL]
  · have hL' : hasSub s limitTok = false := by
      revert hL; cases hasSub s limitTok <;> simp
    by_cases hE : s.isEmpty = true
    · refine ⟨s ++ defaultQuery, ?_, ?_⟩
      · unfold AddLimit
        simp [hL', hE]
      · rw [List.isEmpty_eq_true] at hE
        rw [hE]
        simpa using (by decide : hasSub defaultQuery limitTok = false)
    · refine ⟨s, ?_, hL'⟩
      unfold AddLimit
      simp [hL', hE]

/-- A two-argument `AddLimit` call appends exactly
`" LIMIT " ++ m ++ " OFFSET " ++ k` to a limit-marker-free base. -/
theorem addLimit_two (m k : Int) (s : Builder) :
    ∃ b, AddLimit [m, k] s =
        b ++ limitTok ++ goItoa m ++ offsetTok ++ goItoa k ∧
      hasSub b limitTok = false := by
  by_cases hL : hasSub s limitTok = true
  · obtain ⟨r, hr, hfree⟩ := splitSub_head limitTok (by decide) s
    refine ⟨getPiece (splitSub limitTok s) 0, ?_, hfree⟩
    unfold AddLimit
    simp [hL]
  · have hL' : hasSub s limitTok = false := by
      revert hL; cases hasSub s limitTok <;> simp
    by_cases hE : s.isEmpty = true
    · refine ⟨s ++ defaultQuery, ?_, ?_⟩
      · unfold AddLimit
        simp [hL', hE]
      · rw [List.isEmpty_eq_true] at hE
        rw [hE]
        simpa using (by decide : hasSub defaultQuery limitTok = false)
    · refine ⟨s, ?_, hL'⟩
      unfold AddLimit
      simp [hL', hE]

/-- One row of the `logs` table (schema in `handlers.go` `table`). -/
structure LogRow where
  id : Nat
  level : Int
  callerFile : List Char
  callerLine : Int
  callerFunction : List Char
  message : List Char
deriving DecidableEq

/-- The store state: the `logs`, `tags` and `log_tags` tables of the schema
in `handlers.go`, plus the AUTOINCREMENT counters backing the two integer
primary keys. -/
structure DB where
  logs : List LogRow
  tags : List (Nat × List Char)
  logTags : List (Nat × Nat)
  nextLogId : Nat
  nextTagId : Nat
deriving DecidableEq

/-- Fault-injection plan for `createNewLog`: which of the fallible SQLite
calls succeed.  `tagOk i`/`linkOk i` stand for the prepare+exec pair of the
i-th tag iteration; a prepare failure and an exec failure both abort the
function before `tx.Commit()`, which is what matters for atomicity. -/
structure FaultPlan where
  beginOk : Bool
  logOk : Bool
  tagOk : Nat → Bool
  linkOk : Nat → Bool
  commitOk : Bool

/-- The fields of the in-memory `log` struct (`log.go`) that `createNewLog`
binds into its INSERT statements. -/
structure LogRec where
  level : Int
  tags : List (List Char)
  callerFile : List Char
  callerLine : Int
  callerFunction : List Char
  message : List Char

/-- Statement `INSERT OR IGNORE INTO tags (name) VALUES (?)`: inserts the name with a
fresh id unless a row with that (UNIQUE) name already exists. -/
def insTag (t : List Char) (db : DB) : DB :=
  if db.tags.any (fun p => p.2 == t) then db
  else
    { db with
      tags := db.tags ++ [(db.nextTagId, t)]
      nextTagId := db.nextTagId + 1 }

/-- Subquery `(SELECT id FROM tags WHERE name = ?)`. -/
def tagIdOf (t : List Char) (db : DB) : Nat :=
  ((db.tags.find? (fun p => p.2 == t)).map Prod.fst).getD 0

def mkRow (logId : Nat) (lg : LogRec) : LogRow :=
  ⟨logId, lg.level, lg.callerFile, lg.callerLine, lg.callerFunction,
    lg.message⟩

/-- The tag loop of `createNewLog` (`handlers.go` lines 139-165) running
against the pending transaction state: insert-or-ignore the tag row, then
insert the association row.  A duplicate `(log_id, tag_id)` association
violates the declared primary key of `log_tags` and the exec reports an
error. -/
def insertTagLoop (fp : FaultPlan) (logId : Nat) :
    List (List Char) → Nat → DB → Except (List Char) DB
  | [], _, tx => .ok tx
  | t :: ts, i, tx =>
    if fp.tagOk i = false then .error "tag insert failed".data
    else
      let tx1 := insTag t tx
      if fp.linkOk i = false then .error "link insert failed".data
      else if tx1.logTags.contains (logId, tagIdOf t tx1) then
        .error "log_tags primary key violation".data
      else insertTagLoop fp logId ts (i + 1)
        { tx1 with logTags := tx1.logTags ++ [(logId, tagIdOf t tx1)] }

/-- Function `createNewLog` from `handlers.go` lines 109-174: one transaction wraps
the log insert, the per-tag insert-or-ignore and the association inserts.
Statements run against the pending transaction state `tx`; only a
successful `tx.Commit()` publishes it.  Every error path leaves the store
unchanged: either through the explicit `tx.Rollback()` calls, or — on the
prepare-failure paths that return without rolling back — through the
implicit rollback when the deferred `db.Close()` discards the uncommitted
transaction. -/
def createNewLog (fp : FaultPlan) (lg : LogRec) (db : DB) :
    Except (List Char) Unit × DB :=
  if fp.beginOk = false then (.error "begin failed".data, db)
  else if fp.logOk = false then (.error "log insert failed".data, db)
  else
    let logId := db.nextLogId
    let tx :=
      { db with
        logs := db.logs ++ [mkRow logId lg]
        nextLogId := logId + 1 }
    if logId < 1 then (.error "invalid last insert id".data, db)
    else
      match insertTagLoop fp logId lg.tags 0 tx with
      | .error e => (.error e, db)
      | .ok tx1 =>
        if fp.commitOk = false then (.error "commit failed".data, db)
        else (.ok (), tx1)

/-- The complete write as one pure state transformation: the log row plus,
per tag, the insert-or-ignore tag row and the association row.  This is
the "whole write" that `createNewLog` commits in full or not at all. -/
def goodWrite (lg : LogRec) (db : DB) : DB :=
  let logId := db.nextLogId
  let db1 :=
    { db with
      logs := db.logs ++ [mkRow logId lg]
      nextLogId := logId + 1 }
  lg.tags.foldl (fun d t =>
    let d1 := insTag t d
    { d1 with logTags := d1.logTags ++ [(logId, tagIdOf t d1)] }) db1

theorem insertTagLoop_ok (fp : FaultPlan) (logId : Nat) :
    ∀ (ts : List (List Char)) (i : Nat) (tx tx1 : DB),
    insertTagLoop fp logId ts i tx = .ok tx1 →
    tx1 = ts.foldl (fun d t =>
      let d1 := insTag t d
      { d1 with logTags := d1.logTags ++ [(logId, tagIdOf t d1)] }) tx := by
  intro ts
  induction ts with
  | nil =>
    intro i tx tx1 h
    simp only [insertTagLoop] at h
    cases h
    simp
  | cons t ts ih =>
    intro i tx tx1 h
    simp only [insertTagLoop] at h
    by_cases h1 : fp.tagOk i = false
    · rw [if_pos h1] at h; cases h
    · rw [if_neg h1] at h
      by_cases h2 : fp.linkOk i = false
      · rw [if_pos h2] at h; cases h
      · rw [if_neg h2] at h
        by_cases h3 : (insTag t tx).logTags.contains
            (logId, tagIdOf t (insTag t tx)) = true
        · rw [if_pos h3] at h; cases h
        · rw [if_neg h3] at h
          rw [List.foldl_cons]
          exact ih (i + 1) _ tx1 h

theorem createNewLog_error_state (fp : FaultPlan) (lg : LogRec) (db : DB)
    (h : (createNewLog fp lg db).1 ≠ .ok ()) :
    (createNewLog fp lg db).2 = db := by
  unfold createNewLog at h ⊢
  by_cases h1 : fp.beginOk = false
  · rw [if_pos h1]
  · rw [if_neg h1] at h ⊢
    by_cases h2 : fp.logOk = false
    · rw [if_pos h2]
    · rw [if_neg h2] at h ⊢
      by_cases h3 : db.nextLogId < 1
      · rw [if_pos h3]
      · rw [if_neg h3] at h ⊢
        cases hq : insertTagLoop fp db.nextLogId lg.tags 0
          { db with
            logs := db.logs ++ [mkRow db.nextLogId lg]
            nextLogId := db.nextLogId + 1 } with
        | error e => rfl
        | ok tx1 =>
          by_cases h4 : fp.commitOk = false
          · simp [h4]
          · rw [hq] at h
            simp [h4] at h

theorem createNewLog_ok_state (fp : FaultPlan) (lg : LogRec) (db : DB)
    (h : (createNewLog fp lg db).1 = .ok ()) :
    (createNewLog fp lg db).2 = goodWrite lg db := by
  unfold createNewLog at h ⊢
  by_cases h1 : fp.beginOk = false
  · rw [if_pos h1] at h; cases h
  · rw [if_neg h1] at h ⊢
    by_cases h2 : fp.logOk = false
    · rw [if_pos h2] at h; cases h
    · rw [if_neg h2] at h ⊢
      by_cases h3 : db.nextLogId < 1
      · rw [if_pos h3] at h; cases h
      · rw [if_neg h3] at h ⊢
        cases hq : insertTagLoop fp db.nextLogId lg.tags 0
          { db with
            logs := db.logs ++ [mkRow db.nextLogId lg]
            nextLogId := db.nextLogId + 1 } with
        | error e => rw [hq] at h; simp at h
        | ok tx1 =>
          by_cases h4 : fp.commitOk = false
          · rw [hq] at h
            simp [h4] at h
          · simp only [h4, Bool.false_eq_true, if_false]
            exact insertTagLoop_ok fp db.nextLogId lg.tags 0 _ tx1 hq

/-- Modelled from the schema DDL (the `table` constant, `handlers.go` lines
13-50): `DELETE FROM logs WHERE id = ?` under SQLite foreign-key semantics.
`log_tags` declares `FOREIGN KEY (log_id) REFERENCES logs(id) ON DELETE
CASCADE`, so the association rows of the deleted log are removed with it;
the `tags` table has no foreign key into `logs` and is untouched. -/
def deleteLog (logId : Nat) (db : DB) : DB :=
  { db with
    logs := db.logs.filter (fun r => r.id != logId)
    logTags := db.logTags.filter (fun p => p.1 != logId) }

/-- The `UNIQUE` constraint on `tags.name` as a state invariant. -/
def tagNamesUnique (db : DB) : Prop := (db.tags.map Prod.snd).Nodup

theorem insTag_tags_shape (t : List Char) (db : DB) :
    (insTag t db).tags = db.tags ∨
      (insTag t db).tags = db.tags ++ [(db.nextTagId, t)] := by
  unfold insTag
  by_cases hc : db.tags.any (fun p => p.2 == t) = true
  · left; rw [if_pos hc]
  · right; rw [if_neg hc]

theorem tagNamesUnique_insTag (t : List Char) (db : DB)
    (h : tagNamesUnique db) : tagNamesUnique (insTag t db) := by
  unfold insTag
  by_cases hc : db.tags.any (fun p => p.2 == t) = true
  · rw [if_pos hc]; exact h
  · rw [if_neg hc]
    unfold tagNamesUnique at h ⊢
    simp only [List.map_append, List.map_cons, List.map_nil]
    have hnot : t ∉ db.tags.map Prod.snd := by
      intro hmem
      obtain ⟨p, hp, hpt⟩ := List.mem_map.mp hmem
      have : db.tags.any (fun p => p.2 == t) = true :=
        List.any_eq_true.mpr ⟨p, hp, by simp [hpt]⟩
      exact hc this
    refine List.Nodup.append h (by simp) ?_
    intro x hx hx2
    rw [List.mem_singleton.mp hx2] at hx
    exact hnot hx

theorem foldWrite_tags_mono (logId : Nat) (ts : List (List Char)) :
    ∀ db : DB, ∃ ext, (ts.foldl (fun d t =>
      let d1 := insTag t d
      { d1 with logTags := d1.logTags ++ [(logId, tagIdOf t d1)] }) db).tags
      = db.tags ++ ext := by
  induction ts with
  | nil => intro db; exact ⟨[], by simp⟩
  | cons t ts ih =>
    intro db
    rw [List.foldl_cons]
    obtain ⟨ext1, h1⟩ := ih _
    rcases insTag_tags_shape t db with hs | hs
    · exact ⟨ext1, by rw [h1]; rw [show ({ insTag t db with
        logTags := (insTag t db).logTags ++
          [(logId, tagIdOf t (insTag t db))] } : DB).tags =
        (insTag t db).tags from rfl, hs]⟩
    · refine ⟨(db.nextTagId, t) :: ext1, ?_⟩
      rw [h1]
      rw [show ({ insTag t db with
        logTags := (insTag t db).logTags ++
          [(logId, tagIdOf t (insTag t db))] } : DB).tags =
        (insTag t db).tags from rfl, hs]
      simp

theorem foldWrite_nodup (logId : Nat) (ts : List (List Char)) :
    ∀ db : DB, tagNamesUnique db → tagNamesUnique (ts.foldl (fun d t =>
      let d1 := insTag t d
      { d1 with logTags := d1.logTags ++ [(logId, tagIdOf t d1)] }) db) := by
  induction ts with
  | nil => intro db h; simpa using h
  | cons t ts ih =>
    intro db h
    rw [List.foldl_cons]
    refine ih _ ?_
    have := tagNamesUnique_insTag t db h
    unfold tagNamesUnique at this ⊢
    exact this

theorem createNewLog_tags_mono (fp : FaultPlan) (lg : LogRec) (db : DB) :
    ∃ ext, (createNewLog fp lg db).2.tags = db.tags ++ ext := by
  by_cases h : (createNewLog fp lg db).1 = .ok ()
  · rw [createNewLog_ok_state fp lg db h]
    unfold goodWrite
    exact foldWrite_tags_mono db.nextLogId lg.tags _
  · rw [createNewLog_error_state fp lg db h]
    exact ⟨[], by simp⟩

theorem createNewLog_nodup (fp : FaultPlan) (lg : LogRec) (db : DB)
    (h : tagNamesUnique db) : tagNamesUnique (createNewLog fp lg db).2 := by
  by_cases hk : (createNewLog fp lg db).1 = .ok ()
  · rw [createNewLog_ok_state fp lg db hk]
    unfold goodWrite
    exact foldWrite_nodup db.nextLogId lg.tags _ h
  · rw [createNewLog_error_state fp lg db hk]
    exact h

/-- One scanned row of the `defaultQuery` projection
(`id, level, caller_file, caller_line, caller_function, message, time`). -/
structure RowData where
  id : Nat
  level : Int
  callerFile : List Char
  callerLine : Int
  callerFunction : List Char
  message : List Char
  time : List Char
deriving DecidableEq

/-- The in-memory `log` value built by `queryLogs` for one row. -/
structure LogEntry where
  level : Int
  tags : List (List Char)
  callerFile : List Char
  callerLine : Int
  callerFunction : List Char
  message : List Char
  time : List Char
deriving DecidableEq

/-!
A `database/sql` row cursor is modelled by two parameters: `rows`, the
rows delivered by successive `rows.Next()` calls (each row's `Scan` result
is an `Except`, `.error` standing for a scan failure), and `termErr`, the
value `rows.Err()` reports once `Next` returns false — `none` for normal
exhaustion, `some e` when iteration stopped because of an execution error.
-/

/-- The row loop of `getTagsForLog` (`handlers.go` lines 232-239). -/
def getTagsLoop : List (Except (List Char) (List Char)) → List (List Char) →
    Except (List Char) (List (List Char))
  | [], acc => .ok acc
  | r :: rest, acc =>
    match r with
    | .error e => .error e
    | .ok t => getTagsLoop rest (acc ++ [t])

/-- Function `getTagsForLog` from `handlers.go` lines 224-245: scans every delivered
row, then checks `rows.Err()` before returning the list. -/
def getTagsForLog (rows : List (Except (List Char) (List Char)))
    (termErr : Option (List Char)) :
    Except (List Char) (List (List Char)) :=
  match getTagsLoop rows [] with
  | .error e => .error e
  | .ok acc =>
    match termErr with
    | some e => .error e
    | none => .ok acc

/-- The row loop of `queryLogs` (`handlers.go` lines 196-219): scan the
row, fetch its tags (`tagFetch`, the embedded `getTagsForLog` call), and
append the mapped record; any error aborts with `nil, err`. -/
def queryLogsLoop (tagFetch : Nat → Except (List Char) (List (List Char))) :
    List (Except (List Char) RowData) → List LogEntry →
    Except (List Char) (List LogEntry)
  | [], acc => .ok acc
  | r :: rest, acc =>
    match r with
    | .error e => .error ("failed to scan the logs: ".data ++ e)
    | .ok d =>
      match tagFetch d.id with
      | .error e => .error ("failed to get the tags for the logs: ".data ++ e)
      | .ok ts => queryLogsLoop tagFetch rest
          (acc ++ [⟨d.level, ts, d.callerFile, d.callerLine,
            d.callerFunction, d.message, d.time⟩])

/-- Function `queryLogs` from `handlers.go` lines 176-222.  After the row loop the
Go code returns `logs, nil` directly — it never calls `rows.Err()`, so the
iteration-termination error `termErr` is not consulted (contrast
`getTagsForLog`, which checks it). -/
def queryLogs (tagFetch : Nat → Except (List Char) (List (List Char)))
    (rows : List (Except (List Char) RowData))
    (termErr : Option (List Char)) : Except (List Char) (List LogEntry) :=
  match queryLogsLoop tagFetch rows [] with
  | .error e => .error e
  | .ok logs => .ok logs

/-- Process outcome of a `Logger` method: `terminated` models `os.Exit(1)`,
`returned e` a normal return with error `e` (`none` for Go `nil`). -/
inductive ExecOutcome
  | terminated
  | returned (e : Option (List Char))
deriving DecidableEq

/-- Method `Fatal` from `logger.go` lines 236-254.  `e` is the argument (`none`
for Go `nil`); `capOk` models the `runtime.Caller` lookup inside `newLog`
(`caller.go`), whose failure makes `newLog` return an error; the store
write is the embedded `createNewLog`.  After a successful write the Go
code raises the `beeep` alert and calls `os.Exit(1)`. -/
def FatalFn (e : Option (List Char)) (capOk : Bool) (caller : List Char)
    (line : Int) (fn : List Char) (fp : FaultPlan) (tags : List (List Char))
    (db : DB) : ExecOutcome × DB :=
  match e with
  | none => (.returned none, db)
  | some msg =>
    if capOk = false then
      (.returned (some "failed to get the caller information".data), db)
    else
      match createNewLog fp ⟨4, tags, caller, line, fn, msg⟩ db with
      | (.error err, db1) => (.returned (some err), db1)
      | (.ok _, db1) => (.terminated, db1)

/-- The common shape of `Debug`/`Info`/`Warn`/`Error` (`logger.go` lines
179-228): build the log for the given level, write it, and return the
write result; no branch exits the process. -/
def writeLevel (lvl : Int) (capOk : Bool) (caller : List Char) (line : Int)
    (fn : List Char) (fp : FaultPlan) (tags : List (List Char))
    (msg : List Char) (db : DB) : ExecOutcome × DB :=
  if capOk = false then
    (.returned (some "failed to get the caller information".data), db)
  else
    match createNewLog fp ⟨lvl, tags, caller, line, fn, msg⟩ db with
    | (.error err, db1) => (.returned (some err), db1)
    | (.ok _, db1) => (.returned none, db1)

/-!
The `Logger` configuration struct (`logger.go` lines 44-53).  Go slices are
references into backing arrays; to make slice aliasing observable, the
`tags []string` field is modelled as an index (`tagsRef`) into an explicit
heap of tag arrays, and the operations that allocate a fresh backing array
(`Copy`, `SetTags`) allocate a fresh heap cell.
-/

structure Logger where
  folderPath : List Char
  showTags : Bool
  inline : Bool
  showCaller : Nat
  showTimestamp : Nat
  tagsRef : Nat
  fatalTitle : List Char
  fatalMessage : List Char
deriving DecidableEq

/-- The heap of tag slices referenced by `Logger.tagsRef`. -/
abbrev TagHeap := List (List (List Char))

/-- The tag list a logger currently observes. -/
def readTags (l : Logger) (h : TagHeap) : List (List Char) :=
  h.getD l.tagsRef []

/-- Method `Copy` from `logger.go` lines 101-112: copies every configuration
field; `l.tags = append(make([]string, 0), opts.tags...)` allocates a
fresh backing array holding a copy of the contents, modelled as a fresh
heap cell. -/
def Logger.Copy (opts : Logger) (h : TagHeap) : Logger × TagHeap :=
  ({ opts with tagsRef := h.length }, h ++ [readTags opts h])

/-- Method `Tags` from `logger.go` lines 157-159:
`opts.tags = append(opts.tags, tags...)`.  The logger's own slice gains the
new tags; a reallocating append rebinds only this logger's slice, and an
in-place append writes past every other slice's length, so no other
logger's view changes — modelled as an update of this logger's cell. -/
def Logger.Tags (opts : Logger) (ts : List (List Char)) (h : TagHeap) :
    TagHeap :=
  h.set opts.tagsRef (readTags opts h ++ ts)

/-- Method `SetTags` from `logger.go` lines 163-165:
`opts.tags = append(make([]string, 0), tags...)` allocates a fresh backing
array and rebinds the field. -/
def Logger.SetTags (opts : Logger) (ts : List (List Char)) (h : TagHeap) :
    Logger × TagHeap :=
  ({ opts with tagsRef := h.length }, h ++ [ts])

theorem addFilters_id (configs : List QueryOption) (sb : Builder) :
    AddFilters configs sb = sb := by
  unfold AddFilters
  induction configs with
  | nil => rfl
  | cons c cs ih => rw [List.foldl_cons]; exact ih

theorem addSorts_id (configs : List QueryOption) (sb : Builder) :
    AddSorts configs sb = sb := by
  unfold AddSorts
  induction configs with
  | nil => rfl
  | cons c cs ih => rw [List.foldl_cons]; exact ih

/-- C1: filtering by a message that contains the literal text
`" ORDER BY "` and then applying one further filter does NOT keep the
literal safely inside its predicate: `prepareFilter` re-splits the
accumulated text on the marker inside the message literal, moving the
text after `ORDER BY` out of the WHERE predicate and into the ORDER BY
clause.  The compiled statement for `MessageLike "a ORDER BY b"` followed
by `LevelEqual 1` is
`… WHERE logs.message LIKE '%a AND logs.level = 1 ORDER BY b%';` — the
original predicate `logs.message LIKE '%a ORDER BY b%'` no longer occurs
in it, refuting the claim that clause placement survives such values. -/
theorem C1_message_marker_corruption :
    compileQuery [MessageLike "a ORDER BY b".data, LevelEqual 1] =
      defaultQuery ++
        " WHERE logs.message LIKE '%a AND logs.level = 1 ORDER BY b%';".data ∧
    hasSub (compileQuery [MessageLike "a ORDER BY b".data, LevelEqual 1])
      "logs.message LIKE '%a ORDER BY b%'".data = false := by
  constructor
  · decide
  · decide

/-- C3: the limit option overwrites rather than accumulates.  For every
builder state, `AddLimit [5]` then `AddLimit [10, 2]` yields a statement
ending in `" LIMIT 10 OFFSET 2"` whose prefix carries no `" LIMIT "`
marker (so no trace of the earlier `" LIMIT 5"` remains); a one-argument
call appends exactly `" LIMIT 5"`, which contains no OFFSET marker; a
zero-argument call returns the builder unchanged. -/
theorem C3_addLimit_last_write_wins (s : Builder) :
    AddLimit [] s = s ∧
    (∃ b1, AddLimit [5] s = b1 ++ limitTok ++ goItoa 5 ∧
      hasSub b1 limitTok = false) ∧
    (∃ b2, AddLimit [10, 2] (AddLimit [5] s) =
        b2 ++ limitTok ++ goItoa 10 ++ offsetTok ++ goItoa 2 ∧
      hasSub b2 limitTok = false ∧
      hasSub b2 (limitTok ++ goItoa 5) = false) ∧
    hasSub (limitTok ++ goItoa 5) offsetTok = false := by
  refine ⟨rfl, addLimit_one 5 s, ?_, by decide⟩
  obtain ⟨b2, h2, hb2⟩ := addLimit_two 10 2 (AddLimit [5] s)
  refine ⟨b2, h2, hb2, ?_⟩
  by_contra hc
  have hc' : hasSub b2 (limitTok ++ goItoa 5) = true := by
    revert hc; cases hasSub b2 (limitTok ++ goItoa 5) <;> simp
  have hsub : hasSub (limitTok ++ goItoa 5) limitTok = true :=
    hasSub_append_mid [] limitTok (goItoa 5)
  have : hasSub b2 limitTok = true := hasSub_trans hc' hsub
  rw [hb2] at this
  cases this

/-- C4: sort options accumulate in application order with the first key as
primary — `SortLevel "DESC"` then `SortTimestamp "ASC"` compiles to a
single `ORDER BY logs.level DESC, logs.time ASC` tail — and `getOrder`
normalizes every direction other than ascending/descending
(case-insensitively, via `ToUpper`) to `"ASC"`. -/
theorem C4_sort_order_and_direction_default :
    compileQuery [SortLevel "DESC".data, SortTimestamp "ASC".data] =
      defaultQuery ++ " ORDER BY logs.level DESC, logs.time ASC;".data ∧
    (∀ s : List Char, goToUpper s ≠ "ASC".data → goToUpper s ≠ "DESC".data →
      getOrder s = "ASC".data) ∧
    (∀ s : List Char, getOrder s = "ASC".data ∨ getOrder s = "DESC".data) := by
  refine ⟨by decide, ?_, ?_⟩
  · intro s h1 h2
    unfold getOrder
    rw [if_pos ⟨h1, h2⟩]
  · intro s
    unfold getOrder
    by_cases h : goToUpper s ≠ "ASC".data ∧ goToUpper s ≠ "DESC".data
    · rw [if_pos h]; left; rfl
    · rw [if_neg h]
      by_cases h1 : goToUpper s = "ASC".data
      · left; exact h1
      · right
        by_cases h2 : goToUpper s = "DESC".data
        · exact h2
        · exact absurd ⟨h1, h2⟩ h

/-- Witness for C4 at concrete inputs: an invalid direction string
normalizes to `"ASC"`. -/
theorem C4_sort_order_witness : getOrder "sideways".data = "ASC".data :=
  C4_sort_order_and_direction_default.2.1 "sideways".data
    (by decide) (by decide)

/-- C9: `AddFilters` and `AddSorts` leave the builder untouched for every
configuration list and every builder state: the Go loop body builds
`prepareFilter(config)` (resp. `prepareSort(config)`) and discards it
without applying it, so batching options through these combinators
contributes nothing to the compiled statement. -/
theorem C9_addFilters_addSorts_noop (configs : List QueryOption)
    (sb : Builder) :
    AddFilters configs sb = sb ∧ AddSorts configs sb = sb :=
  ⟨addFilters_id configs sb, addSorts_id configs sb⟩

/-- C2: for every nonempty list of independent predicate fragments
(`fragOk`: nonempty and free of clause-marker collisions, the formal
reading of "independent") and every permutation of it, compiling the
mapped filter options from an empty specification yields the base query
followed by exactly one WHERE clause conjoining all the fragments with
`" AND "`, and the multiset of conjoined fragments is the same across
permutations (order may differ, the set may not). -/
theorem C2_filters_perm_conjunction (fs fs' : List (List Char))
    (hperm : fs.Perm fs') (hne : fs ≠ [])
    (hok : ∀ f ∈ fs, fragOk f = true) :
    compileQuery (fs.map mkFilter) =
      defaultQuery ++ whereTok ++ joinAnd fs ++ semiTok ∧
    compileQuery (fs'.map mkFilter) =
      defaultQuery ++ whereTok ++ joinAnd fs' ++ semiTok ∧
    (fs : Multiset (List Char)) = (fs' : Multiset (List Char)) := by
  have hne' : fs' ≠ [] := by
    intro hc
    subst hc
    exact hne hperm.eq_nil
  have hok' : ∀ f ∈ fs', fragOk f = true := fun f hf =>
    hok f (hperm.mem_iff.mpr hf)
  exact ⟨compile_filters fs hne hok, compile_filters fs' hne' hok',
    Multiset.coe_eq_coe.mpr hperm⟩

/-- Witness for C2: two concrete independent predicates, in both orders. -/
theorem C2_filters_perm_witness :
    compileQuery (["logs.level = 1".data, "logs.caller_line = 7".data].map
        mkFilter) =
      defaultQuery ++ whereTok ++
        joinAnd ["logs.level = 1".data, "logs.caller_line = 7".data] ++
        semiTok :=
  (C2_filters_perm_conjunction
    ["logs.level = 1".data, "logs.caller_line = 7".data]
    ["logs.caller_line = 7".data, "logs.level = 1".data]
    (by decide) (by decide) (by decide)).1

/-- C5: `createNewLog` is atomic.  When it reports success the store holds
exactly the complete write (`goodWrite`: the log row, the
insert-or-ignore tag rows, and the association rows); on every failure —
at begin, at any insert, at the last-insert-id check, or at commit — the
store is exactly the initial state, with no partial write retained. -/
theorem C5_createNewLog_atomic (fp : FaultPlan) (lg : LogRec) (db : DB) :
    ((createNewLog fp lg db).1 = .ok () →
      (createNewLog fp lg db).2 = goodWrite lg db) ∧
    ((createNewLog fp lg db).1 ≠ .ok () →
      (createNewLog fp lg db).2 = db) :=
  ⟨createNewLog_ok_state fp lg db, createNewLog_error_state fp lg db⟩

/-- Witness for C5: a fault-free run commits the whole write; a run whose
first tag insert fails leaves the store untouched. -/
theorem C5_createNewLog_atomic_witness :
    (createNewLog ⟨true, true, fun _ => true, fun _ => true, true⟩
        ⟨3, ["auth".data], "main.go".data, 10, "main.main".data,
          "login failed".data⟩ ⟨[], [], [], 1, 1⟩).2 =
      goodWrite ⟨3, ["auth".data], "main.go".data, 10, "main.main".data,
          "login failed".data⟩ ⟨[], [], [], 1, 1⟩ ∧
    (createNewLog ⟨true, true, fun _ => false, fun _ => true, true⟩
        ⟨3, ["auth".data], "main.go".data, 10, "main.main".data,
          "login failed".data⟩ ⟨[], [], [], 1, 1⟩).2 =
      ⟨[], [], [], 1, 1⟩ :=
  ⟨(C5_createNewLog_atomic ⟨true, true, fun _ => true, fun _ => true, true⟩
      ⟨3, ["auth".data], "main.go".data, 10, "main.main".data,
        "login failed".data⟩ ⟨[], [], [], 1, 1⟩).1 rfl,
   (C5_createNewLog_atomic ⟨true, true, fun _ => false, fun _ => true, true⟩
      ⟨3, ["auth".data], "main.go".data, 10, "main.main".data,
        "login failed".data⟩ ⟨[], [], [], 1, 1⟩).2 (fun hc => nomatch hc)⟩

/-- C6: `queryLogs` never consults the cursor's termination error: its
result is identical for every `termErr`, and on a cursor that delivers one
row and then stops with an execution error it returns the truncated list
with a nil error — while `getTagsForLog` (same file) surfaces any
termination error, confirming the intended contract that the claim
states. -/
theorem C6_queryLogs_iteration_error_swallowed :
    (∀ tagFetch rows te1 te2,
      queryLogs tagFetch rows te1 = queryLogs tagFetch rows te2) ∧
    queryLogs (fun _ => .ok [])
        [.ok ⟨1, 0, "f".data, 1, "fn".data, "m".data, "t".data⟩]
        (some "driver: bad connection".data) =
      .ok [⟨0, [], "f".data, 1, "fn".data, "m".data, "t".data⟩] ∧
    (∀ rows e, ∃ e2, getTagsForLog rows (some e) = .error e2) := by
  refine ⟨fun _ _ _ _ => rfl, rfl, ?_⟩
  intro rows e
  cases hq : getTagsLoop rows [] with
  | error e2 => exact ⟨e2, by simp [getTagsForLog, hq]⟩
  | ok acc => exact ⟨e, by simp [getTagsForLog, hq]⟩

/-- C7: deleting a log removes exactly its `log_tags` association rows
(the declared cascade) and leaves every `tags` row intact even when it
becomes unreferenced; tag names stay unique through both deletion and the
write path; and no operation shrinks the `tags` table (`createNewLog` only
appends to it, `deleteLog` leaves it unchanged). -/
theorem C7_delete_cascade_keeps_tags (logId : Nat) (db : DB)
    (fp : FaultPlan) (lg : LogRec) (h : tagNamesUnique db) :
    (deleteLog logId db).tags = db.tags ∧
    (deleteLog logId db).logTags =
      db.logTags.filter (fun p => p.1 != logId) ∧
    (deleteLog logId db).logs = db.logs.filter (fun r => r.id != logId) ∧
    tagNamesUnique (deleteLog logId db) ∧
    tagNamesUnique (createNewLog fp lg db).2 ∧
    (∃ ext, (createNewLog fp lg db).2.tags = db.tags ++ ext) :=
  ⟨rfl, rfl, rfl, h, createNewLog_nodup fp lg db h,
    createNewLog_tags_mono fp lg db⟩

/-- Witness for C7: deleting the only log keeps the now-unreferenced tag
row. -/
theorem C7_delete_cascade_keeps_tags_witness :
    (deleteLog 1 ⟨[⟨1, 0, [], 0, [], []⟩], [(1, "auth".data)], [(1, 1)],
      2, 2⟩).tags = [(1, "auth".data)] :=
  (C7_delete_cascade_keeps_tags 1
    ⟨[⟨1, 0, [], 0, [], []⟩], [(1, "auth".data)], [(1, 1)], 2, 2⟩
    ⟨true, true, fun _ => true, fun _ => true, true⟩
    ⟨0, [], [], 0, [], []⟩ (by unfold tagNamesUnique; decide)).1

/-- C8: the fatal-severity write path is the only non-recoverable outcome.
`Fatal` terminates the process exactly when its error argument is non-nil
and the store write succeeds; a nil argument returns nil immediately; a
caller-capture failure or a write failure returns the error without
terminating and leaves the store unchanged; and the non-fatal write paths
(`Debug`/`Info`/`Warn`/`Error`, embedded as `writeLevel`) never terminate
the process. -/
theorem C8_fatal_sole_termination (msg caller fn : List Char) (line : Int)
    (capOk : Bool) (fp : FaultPlan) (tags : List (List Char)) (db : DB) :
    FatalFn none capOk caller line fn fp tags db = (.returned none, db) ∧
    ((FatalFn (some msg) capOk caller line fn fp tags db).1 = .terminated ↔
      capOk = true ∧
        (createNewLog fp ⟨4, tags, caller, line, fn, msg⟩ db).1 = .ok ()) ∧
    (capOk = false →
      FatalFn (some msg) capOk caller line fn fp tags db =
        (.returned (some "failed to get the caller information".data),
          db)) ∧
    ((createNewLog fp ⟨4, tags, caller, line, fn, msg⟩ db).1 ≠ .ok () →
      (FatalFn (some msg) capOk caller line fn fp tags db).1 ≠
        .terminated ∧
      (FatalFn (some msg) capOk caller line fn fp tags db).2 = db) ∧
    (∀ lvl msg2,
      (writeLevel lvl capOk caller line fn fp tags msg2 db).1 ≠
        .terminated) := by
  refine ⟨rfl, ?_, ?_, ?_, ?_⟩
  · cases hcap : capOk with
    | false => simp [FatalFn]
    | true =>
      cases hr : createNewLog fp ⟨4, tags, caller, line, fn, msg⟩ db with
      | mk fst snd =>
        cases fst with
        | error e => simp [FatalFn, hr]
        | ok u => simp [FatalFn, hr]
  · intro hcap
    simp [FatalFn, hcap]
  · intro h
    cases hcap : capOk with
    | false =>
      constructor
      · simp [FatalFn]
      · simp [FatalFn]
    | true =>
      cases hr : createNewLog fp ⟨4, tags, caller, line, fn, msg⟩ db with
      | mk fst snd =>
        cases fst with
        | error e =>
          have hdb : snd = db := by
            have h2 := createNewLog_error_state fp
              ⟨4, tags, caller, line, fn, msg⟩ db (by rw [hr]; simp)
            rw [hr] at h2
            exact h2
          constructor
          · simp [FatalFn, hr]
          · simp [FatalFn, hr, hdb]
        | ok u => exact absurd (by simp [hr]) h
  · intro lvl msg2
    cases hcap : capOk with
    | false => simp [writeLevel]
    | true =>
      cases hr : createNewLog fp ⟨lvl, tags, caller, line, fn, msg2⟩ db with
      | mk fst snd =>
        cases fst with
        | error e => simp [writeLevel, hr]
        | ok u => simp [writeLevel, hr]

/-- Witness for C8: a caller-capture failure returns the capture error
without terminating, and a failed write (begin fails) returns with the
store unchanged. -/
theorem C8_fatal_sole_termination_witness :
    FatalFn (some "boom".data) false "f.go".data 1 "g".data
        ⟨true, true, fun _ => true, fun _ => true, true⟩ []
        ⟨[], [], [], 1, 1⟩ =
      (.returned (some "failed to get the caller information".data),
        ⟨[], [], [], 1, 1⟩) ∧
    (FatalFn (some "boom".data) true "f.go".data 1 "g".data
        ⟨false, true, fun _ => true, fun _ => true, true⟩ []
        ⟨[], [], [], 1, 1⟩).2 = ⟨[], [], [], 1, 1⟩ :=
  ⟨(C8_fatal_sole_termination "boom".data "f.go".data "g".data 1 false
      ⟨true, true, fun _ => true, fun _ => true, true⟩ []
      ⟨[], [], [], 1, 1⟩).2.2.1 rfl,
   ((C8_fatal_sole_termination "boom".data "f.go".data "g".data 1 true
      ⟨false, true, fun _ => true, fun _ => true, true⟩ []
      ⟨[], [], [], 1, 1⟩).2.2.2.1 (fun hc => nomatch hc)).2⟩

/-- C10: `Copy` duplicates every configuration field and allocates a fresh
tag cell with equal contents, so the copy and the original never share tag
storage: appending tags to the copy (`Tags`) or replacing them
(`SetTags`) leaves the original's tags unchanged, and appending to the
original leaves the copy's tags unchanged. -/
theorem C10_copy_isolates_tags (l : Logger) (h : TagHeap)
    (hwf : l.tagsRef < h.length) :
    ((Logger.Copy l h).1.folderPath = l.folderPath ∧
      (Logger.Copy l h).1.showTags = l.showTags ∧
      (Logger.Copy l h).1.inline = l.inline ∧
      (Logger.Copy l h).1.showCaller = l.showCaller ∧
      (Logger.Copy l h).1.showTimestamp = l.showTimestamp ∧
      (Logger.Copy l h).1.fatalTitle = l.fatalTitle ∧
      (Logger.Copy l h).1.fatalMessage = l.fatalMessage) ∧
    readTags (Logger.Copy l h).1 (Logger.Copy l h).2 = readTags l h ∧
    (Logger.Copy l h).1.tagsRef ≠ l.tagsRef ∧
    (∀ ts, readTags l (Logger.Tags (Logger.Copy l h).1 ts
        (Logger.Copy l h).2) = readTags l h) ∧
    (∀ ts, readTags (Logger.Copy l h).1 (Logger.Tags l ts
        (Logger.Copy l h).2) =
      readTags (Logger.Copy l h).1 (Logger.Copy l h).2) ∧
    (∀ ts, readTags l ((Logger.SetTags (Logger.Copy l h).1 ts
        (Logger.Copy l h).2).2) = readTags l h) := by
  have hne : h.length ≠ l.tagsRef := Nat.ne_of_gt hwf
  have hread : readTags l (h ++ [readTags l h]) = readTags l h := by
    simp only [readTags, List.getD_eq_getElem?_getD]
    rw [List.getElem?_append_left hwf]
  refine ⟨⟨rfl, rfl, rfl, rfl, rfl, rfl, rfl⟩, ?_, hne, ?_, ?_, ?_⟩
  · simp only [Logger.Copy, readTags, List.getD_eq_getElem?_getD,
      List.getElem?_concat_length]
    rfl
  · intro ts
    simp only [Logger.Tags, Logger.Copy, readTags,
      List.getD_eq_getElem?_getD]
    rw [List.getElem?_set_ne hne, List.getElem?_append_left hwf]
  · intro ts
    simp only [Logger.Tags, Logger.Copy, readTags,
      List.getD_eq_getElem?_getD]
    rw [List.getElem?_set_ne (Ne.symm hne)]
  · intro ts
    simp only [Logger.SetTags, Logger.Copy, readTags,
      List.getD_eq_getElem?_getD]
    have hlt : l.tagsRef < (h ++ [(h[l.tagsRef]?).getD []]).length := by
      simp
      omega
    rw [List.getElem?_append_left hlt, List.getElem?_append_left hwf]

/-- Witness for C10: a copy of a logger whose tags live in cell 0 gets a
fresh cell, and appending to the copy leaves the original's tags alone. -/
theorem C10_copy_isolates_tags_witness :
    (Logger.Copy ⟨[], false, false, 0, 0, 0, [], []⟩ [["a".data]]).1.tagsRef
      ≠ 0 ∧
    readTags ⟨[], false, false, 0, 0, 0, [], []⟩
      (Logger.Tags
        (Logger.Copy ⟨[], false, false, 0, 0, 0, [], []⟩ [["a".data]]).1
        ["b".data]
        (Logger.Copy ⟨[], false, false, 0, 0, 0, [], []⟩ [["a".data]]).2) =
      readTags ⟨[], false, false, 0, 0, 0, [], []⟩ [["a".data]] :=
  ⟨(C10_copy_isolates_tags ⟨[], false, false, 0, 0, 0, [], []⟩ [["a".data]]
      (by decide)).2.2.1,
   (C10_copy_isolates_tags ⟨[], false, false, 0, 0, 0, [], []⟩ [["a".data]]
      (by decide)).2.2.2.1 ["b".data]⟩
